import Mathlib

/-!
# letter-invaders-go: verification of the game simulation and matching engine

Shallow embedding of the two program variants found in `main.go`
(variant A: the plain version; variant B: the extended version with
particle effects).  Strings are modelled as `List Char` (the game is
lowercase-ASCII only), Go `int` as `Int`, Go `float64` draws of the
random source as `ℚ` supplied through explicit oracle records, and
`rand.Intn n` applied to an oracle draw `r` as `r % n`.
-/

namespace LetterInvaders

abbrev Str := List Char

/-- `screenWidth` constant from `main.go`. -/
def screenWidth : Int := 80

/-- `screenHeight` constant from `main.go`. -/
def screenHeight : Int := 23

/-- `statusHeight` constant from `main.go`. -/
def statusHeight : Int := 2

/-- `gameHeight = screenHeight - statusHeight` from `main.go`. -/
def gameHeight : Int := screenHeight - statusHeight

/-- The `word` struct: falling word text, column `x`, row `y`, and the
`matched` prefix-length counter. -/
structure Word where
  text : Str
  x : Int
  y : Int
  matched : Int
  deriving DecidableEq, Repr, Inhabited

/-- The `particle` struct of variant B.  The Go code stores a cartesian
velocity `vx = speed * cos angle`, `vy = speed * sin angle` computed with
`float64` trigonometry; we keep the polar data `(speed, angle)`, which
determines the velocity exactly, and apply the (parameterised)
cosine/sine only where the source multiplies them out. -/
structure Particle where
  x : ℚ
  y : ℚ
  speed : ℚ
  angle : ℚ
  char : Char
  lifetime : Int
  deriving DecidableEq, Repr

/-- The `effect` struct of variant B: one particle burst. -/
structure Effect where
  particles : List Particle
  deriving DecidableEq, Repr

/-- Random draws consumed by `createExplosion`: per particle `i`, the
`rand.Float64()` speed draw and the two `rand.Intn` draws for glyph and
lifetime. -/
structure EffRng where
  speedRoll : ℕ → ℚ
  charRoll : ℕ → ℕ
  lifeRoll : ℕ → ℕ

/-- Random draws consumed by one `maybeAddWord` call: the
`rand.Float64()` spawn-probability draw and the two `rand.Intn` draws
for dictionary index and column. -/
structure TickRng where
  spawnRoll : ℚ
  wordRoll : ℕ
  colRoll : ℕ
  deriving DecidableEq, Repr

/-- The `model` struct (variant B field set; variant A is the same minus
`effects`).  The `current *word` pointer is modelled as an index into
`words`.  The `startTime` field is only used for the rendered WPM figure
and is omitted. -/
structure Model where
  words : List Word
  effects : List Effect
  score : Int
  level : Int
  lives : Int
  wordsTyped : Int
  dict : List Str
  current : Option Nat
  input : Str
  gameOver : Bool
  paused : Bool
  width : Int
  height : Int
  deriving DecidableEq, Repr

/-- `initialModel` from `main.go`. -/
def initialModel (dict : List Str) : Model :=
  { words := [], effects := [], score := 0, level := 1, lives := 3,
    wordsTyped := 0, dict := dict, current := none, input := [],
    gameOver := false, paused := false,
    width := screenWidth, height := screenHeight }

/-- Whitespace test used by `strings.TrimSpace`. -/
def isWs (c : Char) : Bool := c.isWhitespace

/-- `strings.TrimSpace`: drop leading and trailing whitespace. -/
def trimSpace (s : Str) : Str :=
  ((s.dropWhile isWs).reverse.dropWhile isWs).reverse

/-- `strings.ToLower` on an ASCII string. -/
def toLowerStr (s : Str) : Str := s.map Char.toLower

/-- `loadDictionary` of variant A: trim each line and keep every
non-blank line, lowercased.  (No upper length bound.) -/
def loadDictionaryA (lines : List Str) : List Str :=
  lines.filterMap fun line =>
    let w := trimSpace line
    if 0 < w.length then some (toLowerStr w) else none

/-- `loadDictionary` of variant B: trim each line and keep the
lowercased line when its trimmed length is between 1 and 12. -/
def loadDictionaryB (lines : List Str) : List Str :=
  lines.filterMap fun line =>
    let w := trimSpace line
    if 1 ≤ w.length ∧ w.length ≤ 12 then some (toLowerStr w) else none

/-- The fixed glyph set `chars` of `createExplosion`. -/
def glyphs : List Char := ['*', '+', '#', 'o', '.', '~', '^', 'x']

/-- The literal `3.14159` used by `createExplosion` (the Go code does
not use `math.Pi`). -/
def piApprox : ℚ := 314159 / 100000

/-- `createExplosion(x, y, wordLen)` from variant B.  Particle `i` of
`n = 8 + wordLen*2` gets position `(x + i % wordLen, y)`, the
deterministic angle `i * 2 * 3.14159 / n`, speed `0.5 + r * 1.5` from
the speed draw `r`, a glyph `chars[Intn 8]` and lifetime `3 + Intn 3`.
(Go would panic on `i % wordLen` with `wordLen = 0`; claims about this
function assume `1 ≤ wordLen`.) -/
def createExplosion (x y : Int) (wordLen : ℕ) (rng : EffRng) : Effect :=
  let n := 8 + wordLen * 2
  ⟨(List.range n).map fun i =>
    { x := (x : ℚ) + ((i % wordLen : ℕ) : ℚ)
      y := (y : ℚ)
      speed := 1/2 + rng.speedRoll i * (3/2)
      angle := (i : ℚ) * 2 * piApprox / (n : ℚ)
      char := glyphs.getD (rng.charRoll i % glyphs.length) '*'
      lifetime := 3 + ((rng.lifeRoll i % 3 : ℕ) : Int) }⟩

/-- The scan loop of `matchWord`: first index (and word) whose text has
the input buffer as a prefix, in list order. -/
def scanMatch (input : Str) : List Word → Option (Nat × Word)
  | [] => none
  | w :: ws =>
    if input.isPrefixOf w.text then some (0, w)
    else (scanMatch input ws).map fun p => (p.1 + 1, p.2)

/-- `matchWord` (identical in both variants, except that variant B also
appends the explosion effect on a completed word; variant A simply has
no `effects` field). -/
def matchWord (rng : EffRng) (m : Model) : Model :=
  if m.input.isEmpty then { m with current := none }
  else
    match scanMatch m.input m.words with
    | none => { m with input := [], current := none }
    | some (i, w) =>
      if m.input = w.text then
        let wordsTyped' := m.wordsTyped + 1
        { m with
          score := m.score + (w.text.length : Int) * (m.level + 1)
          wordsTyped := wordsTyped'
          effects := m.effects ++ [createExplosion w.x w.y w.text.length rng]
          words := m.words.eraseIdx i
          input := []
          current := none
          level := if wordsTyped' % 15 = 0 then m.level + 1 else m.level }
      else
        { m with
          current := some i
          words := m.words.set i { w with matched := (m.input.length : Int) } }

/-- One step of descent on a single word (`m.words[i].y++`). -/
def bump (w : Word) : Word := { w with y := w.y + 1 }

/-- The removal test of `moveWords` (`y >= gameHeight` after the bump). -/
def landed (w : Word) : Bool := decide (gameHeight ≤ w.y)

/-- The body of `moveWords`: the Go loop runs the index downward from
`len-1` to `0`, so the list tail is processed before the head; each word
descends one row, landed words are dropped, `lives` decrements once per
landed word and the game-over flag is raised at any decrement that
leaves `lives <= 0`. -/
def moveWordsAux : List Word → Int → Bool → List Word × Int × Bool
  | [], lv, go => ([], lv, go)
  | w :: ws, lv, go =>
    let r := moveWordsAux ws lv go
    let w' := bump w
    if landed w' then (r.1, r.2.1 - 1, r.2.2 || decide (r.2.1 - 1 ≤ 0))
    else (w' :: r.1, r.2.1, r.2.2)

/-- `moveWords` (identical in both variants). -/
def moveWords (m : Model) : Model :=
  let r := moveWordsAux m.words m.lives m.gameOver
  { m with words := r.1, lives := r.2.1, gameOver := r.2.2 }

/-- One particle step of `updateEffects`: move by the velocity
(`speed * cos angle, speed * sin angle`) and decrement the lifetime.
`cosF`/`sinF` stand for the `float64` cosine/sine. -/
def stepParticle (cosF sinF : ℚ → ℚ) (p : Particle) : Particle :=
  { p with
    x := p.x + p.speed * cosF p.angle
    y := p.y + p.speed * sinF p.angle
    lifetime := p.lifetime - 1 }

/-- The per-effect inner loop of `updateEffects`: step every particle,
drop particles whose lifetime reached zero. -/
def stepEffect (cosF sinF : ℚ → ℚ) (e : Effect) : Effect :=
  Effect.mk ((e.particles.map (stepParticle cosF sinF)).filter
    (fun p => decide (0 < p.lifetime)))

/-- `updateEffects` from variant B: step every particle, drop dead
particles, drop empty effects. -/
def updateEffects (cosF sinF : ℚ → ℚ) (m : Model) : Model :=
  let es := (m.effects.map (stepEffect cosF sinF)).filter
    (fun e => !e.particles.isEmpty)
  { m with effects := es }

/-- The clamped maximum column for a spawned word:
`maxX := screenWidth - len(newWord) - 1`, clamped up to `0`. -/
def maxXOf (t : Str) : Int :=
  let mx : Int := screenWidth - t.length - 1
  if mx < 0 then 0 else mx

/-- The word built by the spawn branch of `maybeAddWord` (both
variants): text `dict[Intn (len dict)]`, column `Intn (maxX+1)`,
row `0`, zero-valued `matched`. -/
def newWordOf (rng : TickRng) (dict : List Str) : Word :=
  let t := dict.getD (rng.wordRoll % dict.length) []
  { text := t
    x := ((rng.colRoll % ((maxXOf t).toNat + 1) : ℕ) : Int)
    y := 0
    matched := 0 }

/-- The spawn branch shared by both `maybeAddWord` variants. -/
def spawnWord (rng : TickRng) (m : Model) : Model :=
  { m with words := m.words ++ [newWordOf rng m.dict] }

/-- The spawn-probability threshold of variant A: `0.15 + level*0.02`. -/
def thresholdA (level : Int) : ℚ := 15/100 + (level : ℚ) * (2/100)

/-- The spawn-probability threshold of variant B: `0.08 + level*0.01`. -/
def thresholdB (level : Int) : ℚ := 8/100 + (level : ℚ) * (1/100)

/-- `maybeAddWord` of variant A: cap 10, purely probabilistic spawn. -/
def maybeAddWordA (rng : TickRng) (m : Model) : Model :=
  if 10 ≤ m.words.length then m
  else if rng.spawnRoll < thresholdA m.level then spawnWord rng m
  else m

/-- The minimum live-word count of variant B: `1 + level/3`
(Go integer division). -/
def minWordsOf (level : Int) : Int := 1 + level / 3

/-- `maybeAddWord` of variant B: cap 8; spawn unconditionally below
`minWords`, otherwise probabilistically. -/
def maybeAddWordB (rng : TickRng) (m : Model) : Model :=
  if 8 ≤ m.words.length then m
  else if (m.words.length : Int) < minWordsOf m.level
      ∨ rng.spawnRoll < thresholdB m.level then spawnWord rng m
  else m

/-- Keystroke classes handled by `Update` (quit and the terminal-only
keys produce no state change and are not modelled). -/
inductive Key where
  | letter (c : Char)
  | backspace
  | pauseToggle
  | redraw
  deriving DecidableEq, Repr

/-- The events serialized into `Update`: timer ticks (with their random
draws), keystrokes (with the random draws a possible explosion would
consume), and window resizes. -/
inductive Event where
  | tick (rng : TickRng)
  | key (rng : EffRng) (k : Key)
  | resize (w h : Int)

/-- The `tea.KeyMsg` branch of `Update` (variant B): after game over
every key except quit is ignored; pause toggles; backspace truncates the
buffer and clears `current`; a single char in `a`..`z` is appended to
the buffer and re-resolved through `matchWord`. -/
def applyKey (rng : EffRng) (k : Key) (m : Model) : Model :=
  if m.gameOver then m
  else
    match k with
    | .pauseToggle => { m with paused := !m.paused }
    | .backspace =>
        { m with
          input := if 0 < m.input.length then m.input.dropLast else m.input
          current := none }
    | .redraw => m
    | .letter c =>
        if 'a' ≤ c ∧ c ≤ 'z' then matchWord rng { m with input := m.input ++ [c] }
        else m

/-- The `tickMsg` branch of `Update` (variant B): when neither paused
nor game over, run descent, effect decay, then the spawn decision. -/
def tickB (cosF sinF : ℚ → ℚ) (rng : TickRng) (m : Model) : Model :=
  if !m.paused && !m.gameOver then
    maybeAddWordB rng (updateEffects cosF sinF (moveWords m))
  else m

/-- `Update` as an event dispatcher. -/
def applyEvent (cosF sinF : ℚ → ℚ) (m : Model) : Event → Model
  | .tick rng => tickB cosF sinF rng m
  | .key rng k => applyKey rng k m
  | .resize w h => { m with width := w, height := h }

/-- States reachable from `initialModel dict` under arbitrary event
sequences (each event carrying arbitrary random draws). -/
inductive Reachable (cosF sinF : ℚ → ℚ) (dict : List Str) : Model → Prop
  | init : Reachable cosF sinF dict (initialModel dict)
  | step {m : Model} (e : Event) :
      Reachable cosF sinF dict m →
      Reachable cosF sinF dict (applyEvent cosF sinF m e)

/-- Run an event list from the initial model. -/
def runEvents (cosF sinF : ℚ → ℚ) (dict : List Str) (es : List Event) : Model :=
  es.foldl (applyEvent cosF sinF) (initialModel dict)

/-- Landed-word count of a tick, as the descent phase computes it. -/
def landedCount (ws : List Word) : ℕ := (ws.map bump).countP landed

/-! ### Concrete instances used to evaluate the engine on explicit runs -/

/-- String literal helper. -/
def str (s : String) : Str := s.data

/-- A trivial stand-in for the float cosine/sine (the concrete runs
below destroy no word, so no particle is ever stepped). -/
def q0 : ℚ → ℚ := fun _ => 0

/-- Effect-randomness oracle returning zeros. -/
def rngZero : EffRng := ⟨fun _ => 0, fun _ => 0, fun _ => 0⟩

/-- A second, everywhere-different effect-randomness oracle. -/
def rngOther : EffRng := ⟨fun _ => 1/2, fun _ => 7, fun _ => 2⟩

/-- Tick randomness whose spawn draw `1` blocks every probabilistic
spawn (a real `rand.Float64()` draw lies in `[0,1)`; `1` is the
supremum of blocking draws and keeps the run short to state). -/
def trBlock : TickRng := ⟨1, 0, 0⟩

/-- Tick randomness that forces a spawn of dictionary word 0. -/
def trSpawn : TickRng := ⟨0, 0, 0⟩

/-- Tick randomness that forces a spawn of dictionary word 1. -/
def trSpawn1 : TickRng := ⟨0, 1, 0⟩

/-- Tick randomness with spawn draw `1/2`. -/
def trHalf : TickRng := ⟨1/2, 0, 0⟩

/-- Dictionary used by the HIT-shadowing run: `cats` before `cat`. -/
def dictC1 : List Str := [str "cats", str "cat"]

/-- Dictionary for the lives-exhaustion run. -/
def dictC2 : List Str := [str "ab"]

/-- Dictionary for the MISS run. -/
def dictC4 : List Str := [str "cats"]

/-- Event run reaching a state with words `cats`, `cat` and buffer
`ca`: spawn both words, then type `c`, `a`. -/
def evC1 : List Event :=
  [.tick trSpawn, .tick trSpawn1,
   .key rngZero (.letter 'c'), .key rngZero (.letter 'a')]

/-- The same run followed by the keystroke `t`. -/
def evC1t : List Event := evC1 ++ [.key rngZero (.letter 't')]

/-- Event run producing a MISS with recorded match progress: spawn
`cats`, type `c`, `a`, `t`, then the mismatching `x`. -/
def evC4 : List Event :=
  [.tick trSpawn,
   .key rngZero (.letter 'c'), .key rngZero (.letter 'a'),
   .key rngZero (.letter 't'), .key rngZero (.letter 'x')]

/-- 63 unassisted ticks: the third spawned word sits one row above the
bottom, one life left. -/
def evC2pre : List Event := List.replicate 63 (Event.tick trBlock)

/-- 64 unassisted ticks: the third word lands, lives reaches 0. -/
def evC2post : List Event := List.replicate 64 (Event.tick trBlock)

/-- A variant-A dictionary produced from a single 81-character line. -/
def dict81 : List Str := loadDictionaryA [List.replicate 81 'a']

/-- A paused state. -/
def mPaused : Model := { initialModel dictC2 with paused := true }

/-- A game-over state. -/
def mOver : Model := { initialModel dictC2 with gameOver := true, lives := 0 }

/-- A concrete word one keystroke away from completion. -/
def wHit : Word := { text := str "ab", x := 0, y := 0, matched := 0 }

/-- A state whose buffer exactly spells `wHit`. -/
def mHit : Model := { initialModel dictC2 with words := [wHit], input := str "ab" }

/-- The run-time invariant of reachable variant-B states: word rows stay
inside `[0, gameHeight)` and are pairwise distinct (one tick spawns at
most one word, at row 0, after everything else has descended), lives is
never negative, and a live game always has at least one life. -/
def Inv (m : Model) : Prop :=
  (∀ w ∈ m.words, 0 ≤ w.y ∧ w.y < gameHeight) ∧
  (m.words.map (fun w => w.y)).Nodup ∧
  0 ≤ m.lives ∧
  (m.gameOver = false → 1 ≤ m.lives)

end LetterInvaders

namespace LetterInvaders

/-! ## Helper lemmas -/

theorem set_self_of_getElem? {α : Type} :
    ∀ (l : List α) (i : ℕ) (a : α), l[i]? = some a → l.set i a = l
  | [], _, _, h => by simp at h
  | b :: l, 0, a, h => by
    simp at h
    simp [h]
  | b :: l, i + 1, a, h => by
    simp at h
    simp [List.set, set_self_of_getElem? l i a h]

theorem landedCount_cons (w : Word) (ws : List Word) :
    landedCount (w :: ws) =
      landedCount ws + (if landed (bump w) then 1 else 0) := by
  simp [landedCount, List.countP_cons]

theorem moveWordsAux_eq (ws : List Word) (lv : Int) (go : Bool) :
    moveWordsAux ws lv go =
      ((ws.map bump).filter (fun w => !landed w),
       lv - (landedCount ws : Int),
       go || (decide (0 < landedCount ws) &&
              decide (lv - (landedCount ws : Int) ≤ 0))) := by
  induction ws with
  | nil => simp [moveWordsAux, landedCount]
  | cons w ws ih =>
    rw [moveWordsAux, ih, landedCount_cons]
    by_cases h : landed (bump w)
    · simp only [if_pos h]
      refine Prod.ext ?_ (Prod.ext ?_ ?_)
      · simp [List.filter_cons, h]
      · push_cast
        ring
      · cases go
        · simp only [Bool.false_or]
          rw [Bool.eq_iff_iff]
          simp only [Bool.or_eq_true, Bool.and_eq_true, decide_eq_true_eq]
          push_cast
          omega
        · simp
    · simp only [if_neg h, add_zero]
      refine Prod.ext ?_ (Prod.ext rfl rfl)
      simp [List.filter_cons, h]

theorem moveWords_eq (m : Model) :
    moveWords m =
      { m with
        words := (m.words.map bump).filter (fun w => !landed w)
        lives := m.lives - (landedCount m.words : Int)
        gameOver := m.gameOver ||
          (decide (0 < landedCount m.words) &&
           decide (m.lives - (landedCount m.words : Int) ≤ 0)) } := by
  simp [moveWords, moveWordsAux_eq]

end LetterInvaders

namespace LetterInvaders

theorem scanMatch_eq_none {input : Str} {l : List Word}
    (h : ∀ w ∈ l, input.isPrefixOf w.text = false) :
    scanMatch input l = none := by
  induction l with
  | nil => rfl
  | cons v ws ih =>
    rw [scanMatch, if_neg (by simp [h v (List.mem_cons_self v ws)]),
      ih (fun w hw => h w (List.mem_cons_of_mem v hw))]
    rfl

theorem scanMatch_some {input : Str} :
    ∀ {l : List Word} {i : ℕ} {w : Word},
      scanMatch input l = some (i, w) →
      l[i]? = some w ∧ input.isPrefixOf w.text = true := by
  intro l
  induction l with
  | nil => intro i w h; simp [scanMatch] at h
  | cons v ws ih =>
    intro i w h
    rw [scanMatch] at h
    by_cases hp : input.isPrefixOf v.text
    · rw [if_pos hp] at h
      simp only [Option.some.injEq, Prod.mk.injEq] at h
      obtain ⟨hi, hw⟩ := h
      subst hi
      subst hw
      exact ⟨by simp, hp⟩
    · rw [if_neg hp] at h
      cases hs : scanMatch input ws with
      | none => rw [hs] at h; simp at h
      | some p =>
        rw [hs] at h
        simp only [Option.map_some', Option.some.injEq, Prod.mk.injEq] at h
        obtain ⟨hi, hw⟩ := h
        obtain ⟨hg, hpre⟩ := ih hs
        subst hw
        simp [← hi, hg, hpre]

theorem reachable_foldl (cosF sinF : ℚ → ℚ) (dict : List Str)
    (es : List Event) :
    ∀ m, Reachable cosF sinF dict m →
      Reachable cosF sinF dict (es.foldl (applyEvent cosF sinF) m) := by
  induction es with
  | nil => exact fun m h => h
  | cons e es ih => exact fun m h => ih _ (Reachable.step e h)

theorem reachable_runEvents (cosF sinF : ℚ → ℚ) (dict : List Str)
    (es : List Event) :
    Reachable cosF sinF dict (runEvents cosF sinF dict es) :=
  reachable_foldl cosF sinF dict es _ Reachable.init

end LetterInvaders

namespace LetterInvaders

theorem countP_landed_split (l : List Word) :
    l.countP landed + l.countP (fun w => !landed w) = l.length := by
  induction l with
  | nil => rfl
  | cons a l ih => by_cases h : landed a <;> simp [List.countP_cons, h] <;> omega

/-- C3 (confirmed).  On every Playing tick's descent phase
(`moveWords`), every word's row increases by exactly 1 (the bumped map),
exactly the words whose post-tick row reaches the playable height
`gameHeight = screenHeight - statusHeight` are removed (the
order-preserving filter — no word is skipped or duplicated), and lives
decreases by exactly 1 per removed word. -/
theorem C3_descent_exact (m : Model) :
    moveWords m =
      { m with
        words := (m.words.map bump).filter (fun w => !landed w)
        lives := m.lives - (landedCount m.words : Int)
        gameOver := m.gameOver ||
          (decide (0 < landedCount m.words) &&
           decide (m.lives - (landedCount m.words : Int) ≤ 0)) } ∧
    (moveWords m).words.length + landedCount m.words = m.words.length := by
  refine ⟨moveWords_eq m, ?_⟩
  rw [moveWords_eq m]
  have h1 := countP_landed_split (m.words.map bump)
  simp only [landedCount, ← List.countP_eq_length_filter, List.length_map] at h1 ⊢
  omega

theorem loadDictionaryA_eq (lines : List Str) :
    loadDictionaryA lines =
      ((lines.map trimSpace).filter
        (fun w => decide (0 < w.length))).map toLowerStr := by
  induction lines with
  | nil => rfl
  | cons l ls ih =>
    simp only [loadDictionaryA, List.filterMap_cons, List.map_cons,
      List.filter_cons] at ih ⊢
    by_cases h : 0 < (trimSpace l).length
    · simp [h, ih, loadDictionaryA]
    · simp [h, ih, loadDictionaryA]

theorem loadDictionaryB_eq (lines : List Str) :
    loadDictionaryB lines =
      ((lines.map trimSpace).filter
        (fun w => decide (1 ≤ w.length ∧ w.length ≤ 12))).map toLowerStr := by
  induction lines with
  | nil => rfl
  | cons l ls ih =>
    simp only [loadDictionaryB, List.filterMap_cons, List.map_cons,
      List.filter_cons] at ih ⊢
    by_cases h : 1 ≤ (trimSpace l).length ∧ (trimSpace l).length ≤ 12
    · simp [h, ih, loadDictionaryB]
    · simp [h, ih, loadDictionaryB]

/-- C6 (amended).  Dictionary loading trims each line, skips lines that
are blank after trimming, lowercases every accepted line, preserves the
input order (it is the order-preserving trim/filter/lowercase pipeline)
and is deterministic (a pure function of the line list).  The length
filter is `1 ≤ length` with NO upper bound in variant A, and
`1 ≤ length ≤ 12` in variant B. -/
theorem C6_loadDictionary (lines : List Str) :
    (loadDictionaryA lines =
      ((lines.map trimSpace).filter
        (fun w => decide (0 < w.length))).map toLowerStr) ∧
    (loadDictionaryB lines =
      ((lines.map trimSpace).filter
        (fun w => decide (1 ≤ w.length ∧ w.length ≤ 12))).map toLowerStr) ∧
    (∀ w ∈ loadDictionaryB lines, 1 ≤ w.length ∧ w.length ≤ 12) ∧
    (∀ w ∈ loadDictionaryA lines, 1 ≤ w.length) := by
  refine ⟨loadDictionaryA_eq lines, loadDictionaryB_eq lines, ?_, ?_⟩
  · intro w hw
    rw [loadDictionaryB_eq] at hw
    obtain ⟨v, hv, rfl⟩ := List.mem_map.1 hw
    have := (List.mem_filter.1 hv).2
    simp only [decide_eq_true_eq] at this
    simpa [toLowerStr] using this
  · intro w hw
    rw [loadDictionaryA_eq] at hw
    obtain ⟨v, hv, rfl⟩ := List.mem_map.1 hw
    have := (List.mem_filter.1 hv).2
    simp only [decide_eq_true_eq] at this
    simpa [toLowerStr] using this

/-- C6 counterexample.  Variant A's loader accepts a 4-character line,
so the claimed variant-A length filter of 1–3 characters is false. -/
theorem C6_counterexample :
    (loadDictionaryA [List.replicate 4 'a']).map List.length = [4] ∧
    ¬(4 ≤ 3) := by decide

end LetterInvaders

namespace LetterInvaders

/-- C5 (amended).  Spawn policy: neither variant ever spawns at or
above its cap (10 for variant A, 8 for variant B).  Variant B spawns
unconditionally below `minWords = 1 + level/3` and otherwise spawns
exactly when the draw is below `0.08 + level*0.01`; variant A has NO
minimum-count guarantee — below its cap it spawns exactly when the draw
is below `0.15 + level*0.02`.  Both thresholds are monotonically
non-decreasing in the level. -/
theorem C5_spawnPolicy :
    (∀ (rng : TickRng) (m : Model), 8 ≤ m.words.length →
        maybeAddWordB rng m = m) ∧
    (∀ (rng : TickRng) (m : Model), m.words.length < 8 →
        (m.words.length : Int) < minWordsOf m.level →
        maybeAddWordB rng m = spawnWord rng m) ∧
    (∀ (rng : TickRng) (m : Model), m.words.length < 8 →
        ¬((m.words.length : Int) < minWordsOf m.level) →
        maybeAddWordB rng m =
          if rng.spawnRoll < thresholdB m.level then spawnWord rng m else m) ∧
    (∀ (rng : TickRng) (m : Model), 10 ≤ m.words.length →
        maybeAddWordA rng m = m) ∧
    (∀ (rng : TickRng) (m : Model), m.words.length < 10 →
        maybeAddWordA rng m =
          if rng.spawnRoll < thresholdA m.level then spawnWord rng m else m) ∧
    (∀ l₁ l₂ : Int, l₁ ≤ l₂ →
        thresholdB l₁ ≤ thresholdB l₂ ∧ thresholdA l₁ ≤ thresholdA l₂) := by
  refine ⟨?_, ?_, ?_, ?_, ?_, ?_⟩
  · intro rng m h
    rw [maybeAddWordB, if_pos h]
  · intro rng m h hmin
    rw [maybeAddWordB, if_neg (by omega), if_pos (Or.inl hmin)]
  · intro rng m h hmin
    rw [maybeAddWordB, if_neg (by omega)]
    by_cases hq : rng.spawnRoll < thresholdB m.level
    · rw [if_pos (Or.inr hq), if_pos hq]
    · rw [if_neg (by tauto), if_neg hq]
  · intro rng m h
    rw [maybeAddWordA, if_pos h]
  · intro rng m h
    rw [maybeAddWordA, if_neg (by omega)]
  · intro l₁ l₂ h
    have hc : (l₁ : ℚ) ≤ (l₂ : ℚ) := by exact_mod_cast h
    constructor
    · unfold thresholdB
      nlinarith
    · unfold thresholdA
      nlinarith

/-- C5 witness: variant B with an empty word set spawns unconditionally
even though the draw `1` would fail the probabilistic test. -/
theorem C5_spawnPolicy_witness :
    maybeAddWordB trBlock (initialModel dictC2) =
      spawnWord trBlock (initialModel dictC2) :=
  C5_spawnPolicy.2.1 trBlock (initialModel dictC2) (by decide) (by decide)

/-- C5 counterexample.  Variant A's spawn decision does NOT guarantee
the minimum: with an empty word set (count 0, below `minWords = 1`) and
draw `1/2 ≥ 0.15 + 1*0.02`, no word is spawned. -/
theorem C5_counterexample :
    ((initialModel [str "a"]).words.length : Int) <
      minWordsOf (initialModel [str "a"]).level ∧
    maybeAddWordA trHalf (initialModel [str "a"]) = initialModel [str "a"] := by
  constructor
  · decide
  · with_unfolding_all decide

end LetterInvaders

namespace LetterInvaders

/-- C7 (amended).  `createExplosion(x, y, wordLen)` with `wordLen ≥ 1`
and speed draws in `[0,1)` yields exactly `8 + 2*wordLen` particles;
every particle has speed in `[0.5, 2.0)`, a glyph from the fixed symbol
set, an integer lifetime in `3..5`, row `y`, and the DETERMINISTIC
evenly-spaced angle `i * 2 * 3.14159 / n` for the `i`-th particle (the
direction is a function of the index, not of the random source). -/
theorem C7_spawnEffect (x y : Int) (wordLen : ℕ) (rng : EffRng)
    (hlen : 1 ≤ wordLen)
    (hs : ∀ i, 0 ≤ rng.speedRoll i ∧ rng.speedRoll i < 1) :
    (createExplosion x y wordLen rng).particles.length = 8 + 2 * wordLen ∧
    (∀ p ∈ (createExplosion x y wordLen rng).particles,
      1/2 ≤ p.speed ∧ p.speed < 2 ∧ p.char ∈ glyphs ∧
      3 ≤ p.lifetime ∧ p.lifetime ≤ 5) ∧
    (∀ (i : ℕ) (p : Particle),
      (createExplosion x y wordLen rng).particles[i]? = some p →
      p.angle = (i : ℚ) * 2 * piApprox / ((8 + wordLen * 2 : ℕ) : ℚ) ∧
      p.y = (y : ℚ) ∧
      p.x = (x : ℚ) + ((i % wordLen : ℕ) : ℚ)) := by
  refine ⟨?_, ?_, ?_⟩
  · simp [createExplosion]
    ring
  · intro p hp
    simp only [createExplosion, List.mem_map, List.mem_range] at hp
    obtain ⟨i, _, rfl⟩ := hp
    obtain ⟨hs0, hs1⟩ := hs i
    refine ⟨by nlinarith, by nlinarith, ?_, ?_, ?_⟩
    · have hlt : rng.charRoll i % glyphs.length < glyphs.length :=
        Nat.mod_lt _ (by simp [glyphs])
      simp only [List.getD_eq_getElem?_getD, List.getElem?_eq_getElem hlt,
        Option.getD_some]
      exact List.getElem_mem hlt
    · dsimp only
      have : (0 : Int) ≤ ((rng.lifeRoll i % 3 : ℕ) : Int) := Int.ofNat_nonneg _
      omega
    · dsimp only
      have h3 : rng.lifeRoll i % 3 < 3 := Nat.mod_lt _ (by norm_num)
      have : ((rng.lifeRoll i % 3 : ℕ) : Int) ≤ 2 := by exact_mod_cast Nat.le_of_lt_succ h3
      omega
  · intro i p hp
    simp only [createExplosion, List.getElem?_map] at hp
    by_cases hi : i < 8 + wordLen * 2
    · rw [List.getElem?_range hi] at hp
      simp only [Option.map_some', Option.some.injEq] at hp
      subst hp
      exact ⟨rfl, rfl, rfl⟩
    · rw [List.getElem?_eq_none (by simpa using Nat.le_of_not_lt hi)] at hp
      simp at hp

/-- C7 witness at `x = 1, y = 2, wordLen = 3` with the zero oracle. -/
theorem C7_spawnEffect_witness :
    (createExplosion 1 2 3 rngZero).particles.length = 8 + 2 * 3 :=
  (C7_spawnEffect 1 2 3 rngZero (by norm_num)
    (fun i => by constructor <;> norm_num [rngZero])).1

/-- C7 counterexample.  The particle directions are NOT uniformly
random: two oracles that disagree on every speed, glyph and lifetime
draw produce identical angle lists, and the first particle's angle is
always `0`. -/
theorem C7_counterexample :
    (createExplosion 0 0 1 rngZero).particles.map (fun p => p.angle) =
      (createExplosion 0 0 1 rngOther).particles.map (fun p => p.angle) ∧
    rngZero.speedRoll 0 ≠ rngOther.speedRoll 0 ∧
    rngZero.charRoll 0 ≠ rngOther.charRoll 0 ∧
    rngZero.lifeRoll 0 ≠ rngOther.lifeRoll 0 ∧
    ((createExplosion 0 0 1 rngZero).particles.map
      (fun p => p.angle))[0]? = some 0 := by
  refine ⟨?_, ?_, ?_, ?_, ?_⟩
  · simp [createExplosion, List.map_map]
  · simp only [rngZero, rngOther]
    norm_num
  · decide
  · decide
  · simp [createExplosion, List.map_map]

end LetterInvaders

namespace LetterInvaders

theorem matchWord_words_cases (rng : EffRng) (m : Model) :
    (matchWord rng m).words = m.words ∨
    (∃ i w, scanMatch m.input m.words = some (i, w) ∧ m.input = w.text ∧
      (matchWord rng m).words = m.words.eraseIdx i) ∨
    (∃ i w, scanMatch m.input m.words = some (i, w) ∧
      (matchWord rng m).words =
        m.words.set i { w with matched := (m.input.length : Int) }) := by
  unfold matchWord
  by_cases he : m.input.isEmpty
  · rw [if_pos he]
    exact Or.inl rfl
  · rw [if_neg he]
    cases hs : scanMatch m.input m.words with
    | none => exact Or.inl rfl
    | some p =>
      obtain ⟨i, w⟩ := p
      dsimp only
      by_cases heq : m.input = w.text
      · rw [if_pos heq]
        exact Or.inr (Or.inl ⟨i, w, rfl, heq, rfl⟩)
      · rw [if_neg heq]
        exact Or.inr (Or.inr ⟨i, w, rfl, rfl⟩)

theorem matchWord_frame (rng : EffRng) (m : Model) :
    (matchWord rng m).lives = m.lives ∧
    (matchWord rng m).dict = m.dict ∧
    (matchWord rng m).gameOver = m.gameOver ∧
    (matchWord rng m).paused = m.paused := by
  unfold matchWord
  by_cases he : m.input.isEmpty
  · rw [if_pos he]
    exact ⟨rfl, rfl, rfl, rfl⟩
  · rw [if_neg he]
    cases hs : scanMatch m.input m.words with
    | none => exact ⟨rfl, rfl, rfl, rfl⟩
    | some p =>
      obtain ⟨i, w⟩ := p
      dsimp only
      by_cases heq : m.input = w.text
      · rw [if_pos heq]
        exact ⟨rfl, rfl, rfl, rfl⟩
      · rw [if_neg heq]
        exact ⟨rfl, rfl, rfl, rfl⟩

theorem matchWord_words_preserved (rng : EffRng) (m : Model) :
    ∀ w' ∈ (matchWord rng m).words,
      ∃ w ∈ m.words, w'.text = w.text ∧ w'.x = w.x ∧ w'.y = w.y := by
  intro w' hw'
  rcases matchWord_words_cases rng m with h | ⟨i, w, hs, heq, h⟩ | ⟨i, w, hs, h⟩
  · rw [h] at hw'
    exact ⟨w', hw', rfl, rfl, rfl⟩
  · rw [h] at hw'
    exact ⟨w', (List.eraseIdx_sublist _ _).subset hw', rfl, rfl, rfl⟩
  · rw [h] at hw'
    rcases List.mem_or_eq_of_mem_set hw' with hmem | hset
    · exact ⟨w', hmem, rfl, rfl, rfl⟩
    · subst hset
      exact ⟨w, List.getElem?_mem (scanMatch_some hs).1, rfl, rfl, rfl⟩

theorem matchWord_words_length (rng : EffRng) (m : Model) :
    m.words.length ≤ (matchWord rng m).words.length + 1 ∧
    (matchWord rng m).words.length ≤ m.words.length := by
  rcases matchWord_words_cases rng m with h | ⟨i, w, hs, heq, h⟩ | ⟨i, w, hs, h⟩ <;>
    rw [h]
  · omega
  · rw [List.length_eraseIdx]
    split <;> omega
  · simp

theorem moveWords_words_mem (m : Model) :
    ∀ w' ∈ (moveWords m).words, ∃ w ∈ m.words, w' = bump w := by
  intro w' h
  rw [moveWords_eq] at h
  simp only [List.mem_filter, List.mem_map] at h
  obtain ⟨⟨w, hw, rfl⟩, _⟩ := h
  exact ⟨w, hw, rfl⟩

theorem maybeAddWordB_words_cases (rng : TickRng) (m : Model) :
    (maybeAddWordB rng m).words = m.words ∨
    (maybeAddWordB rng m).words = m.words ++ [newWordOf rng m.dict] := by
  unfold maybeAddWordB spawnWord
  by_cases h8 : 8 ≤ m.words.length
  · rw [if_pos h8]
    exact Or.inl rfl
  · rw [if_neg h8]
    by_cases hc : (m.words.length : Int) < minWordsOf m.level ∨
        rng.spawnRoll < thresholdB m.level
    · rw [if_pos hc]
      exact Or.inr rfl
    · rw [if_neg hc]
      exact Or.inl rfl

end LetterInvaders

namespace LetterInvaders

theorem applyKey_words_preserved (rng : EffRng) (k : Key) (m : Model) :
    ∀ w' ∈ (applyKey rng k m).words,
      ∃ w ∈ m.words, w'.text = w.text ∧ w'.x = w.x ∧ w'.y = w.y := by
  intro w' hw'
  unfold applyKey at hw'
  by_cases hgo : m.gameOver
  · rw [if_pos hgo] at hw'
    exact ⟨w', hw', rfl, rfl, rfl⟩
  · rw [if_neg hgo] at hw'
    cases k with
    | pauseToggle => exact ⟨w', hw', rfl, rfl, rfl⟩
    | backspace => exact ⟨w', hw', rfl, rfl, rfl⟩
    | redraw => exact ⟨w', hw', rfl, rfl, rfl⟩
    | letter c =>
      dsimp only at hw'
      by_cases hc : 'a' ≤ c ∧ c ≤ 'z'
      · rw [if_pos hc] at hw'
        exact matchWord_words_preserved rng { m with input := m.input ++ [c] } w' hw'
      · rw [if_neg hc] at hw'
        exact ⟨w', hw', rfl, rfl, rfl⟩

theorem tickB_words_preserved (cosF sinF : ℚ → ℚ) (rng : TickRng) (m : Model) :
    ∀ w' ∈ (tickB cosF sinF rng m).words,
      (∃ w ∈ m.words, w'.text = w.text ∧ w'.x = w.x) ∨
      w' = newWordOf rng m.dict := by
  intro w' hw'
  unfold tickB at hw'
  by_cases hp : !m.paused && !m.gameOver
  · rw [if_pos hp] at hw'
    rcases maybeAddWordB_words_cases rng (updateEffects cosF sinF (moveWords m)) with h | h
    · rw [h] at hw'
      obtain ⟨w, hwmem, rfl⟩ := moveWords_words_mem m w' hw'
      exact Or.inl ⟨w, hwmem, rfl, rfl⟩
    · rw [h] at hw'
      rcases List.mem_append.1 hw' with hmem | hnew
      · obtain ⟨w, hwmem, rfl⟩ := moveWords_words_mem m w' hmem
        exact Or.inl ⟨w, hwmem, rfl, rfl⟩
      · rcases List.mem_singleton.1 hnew with rfl
        exact Or.inr rfl
  · rw [if_neg hp] at hw'
    exact Or.inl ⟨w', hw', rfl, rfl⟩

/-- C9 (amended).  A spawned word is appended at row 0 with column
`Intn(maxX+1)` where `maxX = max 0 (gridWidth - len - 1)`; hence
`0 ≤ x ≤ maxX` always, every column in `[0, maxX]` is attainable by
some draw, and `x + len ≤ gridWidth` holds WHENEVER `len ≤ gridWidth`
(a word longer than the grid is clamped to column 0 and overflows —
possible in variant A, whose dictionary loader has no upper length
bound).  Moreover no operation ever modifies the text or column of a
surviving word after spawn. -/
theorem C9_spawnPlacement :
    (∀ (rng : TickRng) (m : Model),
        (spawnWord rng m).words = m.words ++ [newWordOf rng m.dict]) ∧
    (∀ (rng : TickRng) (dict : List Str),
        (newWordOf rng dict).y = 0 ∧
        0 ≤ (newWordOf rng dict).x ∧
        (newWordOf rng dict).x ≤ maxXOf (newWordOf rng dict).text ∧
        (((newWordOf rng dict).text.length : Int) ≤ screenWidth →
          (newWordOf rng dict).x + (newWordOf rng dict).text.length ≤
            screenWidth)) ∧
    (∀ (q : ℚ) (wr c : ℕ) (dict : List Str),
        (c : Int) ≤ maxXOf (dict.getD (wr % dict.length) []) →
        (newWordOf ⟨q, wr, c⟩ dict).x = (c : Int)) ∧
    (∀ (cosF sinF : ℚ → ℚ) (m : Model) (e : Event),
        ∀ w' ∈ (applyEvent cosF sinF m e).words,
          (∃ w ∈ m.words, w'.text = w.text ∧ w'.x = w.x) ∨
          (∃ rng, e = Event.tick rng ∧ w' = newWordOf rng m.dict)) := by
  refine ⟨fun rng m => rfl, ?_, ?_, ?_⟩
  · intro rng dict
    set t := dict.getD (rng.wordRoll % dict.length) [] with ht
    have htx : (newWordOf rng dict).text = t := rfl
    have hxg : (newWordOf rng dict).x =
        ((rng.colRoll % ((maxXOf t).toNat + 1) : ℕ) : Int) := rfl
    have hM : 0 ≤ maxXOf t := by
      unfold maxXOf
      dsimp only
      split <;> omega
    have hmod : rng.colRoll % ((maxXOf t).toNat + 1) < (maxXOf t).toNat + 1 :=
      Nat.mod_lt _ (Nat.succ_pos _)
    have hx : (newWordOf rng dict).x ≤ maxXOf t := by
      rw [hxg]
      have := Int.toNat_of_nonneg hM
      omega
    have hx0 : 0 ≤ (newWordOf rng dict).x := by
      rw [hxg]
      exact Int.ofNat_nonneg _
    refine ⟨rfl, hx0, by rw [htx]; exact hx, ?_⟩
    intro hlen
    rw [htx] at hlen ⊢
    have hcase : maxXOf t = 0 ∨ maxXOf t = screenWidth - (t.length : Int) - 1 := by
      unfold maxXOf
      dsimp only
      split <;> simp
    rcases hcase with hc | hc <;> rw [hc] at hx <;> omega
  · intro q wr c dict hc
    unfold newWordOf
    dsimp only
    have hM : 0 ≤ maxXOf (dict.getD (wr % dict.length) []) := by
      unfold maxXOf
      dsimp only
      split <;> omega
    have : c < (maxXOf (dict.getD (wr % dict.length) [])).toNat + 1 := by
      have := Int.toNat_of_nonneg hM
      omega
    rw [Nat.mod_eq_of_lt this]
  · intro cosF sinF m e w' hw'
    cases e with
    | resize w h => exact Or.inl ⟨w', hw', rfl, rfl⟩
    | key rng k =>
      obtain ⟨w, hwmem, h1, h2, _⟩ := applyKey_words_preserved rng k m w' hw'
      exact Or.inl ⟨w, hwmem, h1, h2⟩
    | tick rng =>
      rcases tickB_words_preserved cosF sinF rng m w' hw' with h | h
      · exact Or.inl h
      · exact Or.inr ⟨rng, rfl, h⟩

/-- C9 witness: a spawn into an empty variant-B model from the
two-letter dictionary lands at row 0 within the grid. -/
theorem C9_spawnPlacement_witness :
    (newWordOf trSpawn dictC2).y = 0 ∧
    (newWordOf trSpawn dictC2).x + ((newWordOf trSpawn dictC2).text.length : Int) ≤
      screenWidth :=
  ⟨(C9_spawnPlacement.2.1 trSpawn dictC2).1,
   (C9_spawnPlacement.2.1 trSpawn dictC2).2.2.2 (by decide)⟩

/-- C9 counterexample.  With a variant-A dictionary holding an
81-character word (accepted by variant A's loader), the spawned word
has `x = 0` but `x + len = 81 > 80 = gridWidth`, refuting the claimed
`x + length(text) ≤ gridWidth` spawn invariant. -/
theorem C9_counterexample :
    (maybeAddWordA trSpawn (initialModel dict81)).words.map
        (fun w => (w.x, (w.text.length : Int))) = [(0, 81)] ∧
    ¬((0 : Int) + 81 ≤ screenWidth) := by
  constructor
  · with_unfolding_all decide
  · decide

end LetterInvaders

namespace LetterInvaders

theorem applyKey_lives (rng : EffRng) (k : Key) (m : Model) :
    (applyKey rng k m).lives = m.lives := by
  unfold applyKey
  by_cases hgo : m.gameOver
  · rw [if_pos hgo]
  · rw [if_neg hgo]
    cases k with
    | pauseToggle => rfl
    | backspace => rfl
    | redraw => rfl
    | letter c =>
      dsimp only
      by_cases hc : 'a' ≤ c ∧ c ≤ 'z'
      · rw [if_pos hc]
        exact (matchWord_frame rng _).1
      · rw [if_neg hc]

theorem applyKey_words_length (rng : EffRng) (k : Key) (m : Model) :
    m.words.length ≤ (applyKey rng k m).words.length + 1 ∧
    (applyKey rng k m).words.length ≤ m.words.length ∧
    ((∀ c, k ≠ Key.letter c) → (applyKey rng k m).words = m.words) := by
  unfold applyKey
  by_cases hgo : m.gameOver
  · rw [if_pos hgo]
    exact ⟨Nat.le_succ _, le_refl _, fun _ => rfl⟩
  · rw [if_neg hgo]
    cases k with
    | pauseToggle => exact ⟨Nat.le_succ _, le_refl _, fun _ => rfl⟩
    | backspace => exact ⟨Nat.le_succ _, le_refl _, fun _ => rfl⟩
    | redraw => exact ⟨Nat.le_succ _, le_refl _, fun _ => rfl⟩
    | letter c =>
      dsimp only
      by_cases hc : 'a' ≤ c ∧ c ≤ 'z'
      · rw [if_pos hc]
        exact ⟨(matchWord_words_length rng { m with input := m.input ++ [c] }).1,
          (matchWord_words_length rng { m with input := m.input ++ [c] }).2,
          fun hne => absurd rfl (hne c)⟩
      · rw [if_neg hc]
        exact ⟨Nat.le_succ _, le_refl _, fun _ => rfl⟩

/-- C10 (confirmed).  A keystroke in a live game never changes lives or
any surviving word's text, column or row; it removes at most one word
(and only a letter keystroke can remove one); backspace changes exactly
the input buffer (dropping its last character when non-empty) and the
current-word reference. -/
theorem C10_keystroke_frame (rng : EffRng) (k : Key) (m : Model)
    (hgo : m.gameOver = false) :
    (applyKey rng k m).lives = m.lives ∧
    (∀ w' ∈ (applyKey rng k m).words,
      ∃ w ∈ m.words, w'.text = w.text ∧ w'.x = w.x ∧ w'.y = w.y) ∧
    m.words.length ≤ (applyKey rng k m).words.length + 1 ∧
    (applyKey rng k m).words.length ≤ m.words.length ∧
    ((∀ c, k ≠ Key.letter c) → (applyKey rng k m).words = m.words) ∧
    (k = Key.backspace →
      applyKey rng k m =
        { m with
          input := if 0 < m.input.length then m.input.dropLast else m.input
          current := none }) := by
  obtain ⟨h1, h2, h3⟩ := applyKey_words_length rng k m
  refine ⟨applyKey_lives rng k m, applyKey_words_preserved rng k m, h1, h2, h3, ?_⟩
  rintro rfl
  unfold applyKey
  rw [if_neg (by rw [hgo]; exact Bool.false_ne_true)]

/-- C10 witness: backspace on the initial model. -/
theorem C10_keystroke_frame_witness :
    (applyKey rngZero Key.backspace (initialModel dictC2)).lives =
      (initialModel dictC2).lives ∧
    applyKey rngZero Key.backspace (initialModel dictC2) =
      { initialModel dictC2 with
        input := if 0 < (initialModel dictC2).input.length then
            (initialModel dictC2).input.dropLast
          else (initialModel dictC2).input
        current := none } :=
  ⟨(C10_keystroke_frame rngZero Key.backspace (initialModel dictC2) rfl).1,
   (C10_keystroke_frame rngZero Key.backspace (initialModel dictC2) rfl).2.2.2.2.2 rfl⟩

/-- C8 (confirmed).  While paused or after game over, any number of
consecutive ticks leaves the whole state (words with their text, column,
row and match progress, effects, score, level, lives, wordsTyped)
unchanged; and after game over every letter/backspace keystroke (indeed
every non-quit key) is a no-op — only quit is accepted, which produces
no state change either. -/
theorem C8_paused_gameOver_noop (cosF sinF : ℚ → ℚ) (m : Model) :
    ((m.paused || m.gameOver) = true →
      ∀ rngs : List TickRng,
        rngs.foldl (fun s r => tickB cosF sinF r s) m = m) ∧
    (m.gameOver = true →
      ∀ (rng : EffRng) (k : Key), applyKey rng k m = m) := by
  constructor
  · intro hpg rngs
    have hone : ∀ r : TickRng, tickB cosF sinF r m = m := by
      intro r
      unfold tickB
      have hfalse : (!m.paused && !m.gameOver) = false := by
        cases hp : m.paused <;> cases hg : m.gameOver <;> simp_all
      rw [hfalse]
      simp
    induction rngs with
    | nil => rfl
    | cons r rs ih =>
      rw [List.foldl_cons, hone r]
      exact ih
  · intro hgo rng k
    unfold applyKey
    rw [if_pos hgo]

/-- C8 witness: three paused ticks and a post-game-over keystroke are
no-ops. -/
theorem C8_paused_gameOver_noop_witness :
    (List.replicate 3 trBlock).foldl (fun s r => tickB q0 q0 r s) mPaused =
      mPaused ∧
    applyKey rngZero (Key.letter 'a') mOver = mOver :=
  ⟨(C8_paused_gameOver_noop q0 q0 mPaused).1 (by decide) (List.replicate 3 trBlock),
   (C8_paused_gameOver_noop q0 q0 mOver).2 (by decide) rngZero (Key.letter 'a')⟩

end LetterInvaders

namespace LetterInvaders

/-- C4 (amended).  A MISS — a letter keystroke in a live game after
which no word has the buffer as a prefix — clears the input buffer and
the current-word reference and changes NOTHING else: score, words
(including each word's `matched` field, which retains its stale value
rather than being reset), effects, lives, level and wordsTyped are all
untouched.  Recorded progress is discarded only in the sense that the
current reference is dropped; the `matched` counters themselves are not
rewritten. -/
theorem C4_miss (rng : EffRng) (m : Model) (c : Char)
    (hc : 'a' ≤ c ∧ c ≤ 'z') (hgo : m.gameOver = false)
    (hmiss : ∀ w ∈ m.words, (m.input ++ [c]).isPrefixOf w.text = false) :
    applyKey rng (Key.letter c) m =
      { m with input := [], current := none } := by
  unfold applyKey
  rw [if_neg (by rw [hgo]; exact Bool.false_ne_true)]
  dsimp only
  rw [if_pos hc]
  unfold matchWord
  rw [if_neg (by simp), scanMatch_eq_none hmiss]

/-- C4 witness: a miss against the empty word set. -/
theorem C4_miss_witness :
    applyKey rngZero (Key.letter 'x') (initialModel dictC4) =
      { initialModel dictC4 with input := [], current := none } :=
  C4_miss rngZero (initialModel dictC4) 'x' (by decide) rfl (by simp [initialModel])

/-- C4 counterexample.  In the reachable state obtained by spawning
`cats` and typing `c`, `a`, `t`, the mismatching keystroke `x` is a
MISS that clears buffer and current reference and leaves the score at
0 — but the word's `matchedPrefixLength` still reads 3, so the recorded
match progress is NOT discarded as claimed. -/
theorem C4_counterexample :
    (runEvents q0 q0 dictC4 evC4).input = [] ∧
    (runEvents q0 q0 dictC4 evC4).current = none ∧
    (runEvents q0 q0 dictC4 evC4).score = 0 ∧
    (runEvents q0 q0 dictC4 evC4).words.map (fun w => w.matched) = [3] ∧
    ¬((3 : Int) = 0) ∧
    Reachable q0 q0 dictC4 (runEvents q0 q0 dictC4 evC4) := by
  refine ⟨?_, ?_, ?_, ?_, by decide, reachable_runEvents q0 q0 dictC4 evC4⟩ <;>
    with_unfolding_all decide

/-- C1 (amended).  A letter keystroke is a HIT exactly when the FIRST
word in scan order whose text has the (extended) buffer as a prefix is
matched in full; then the score grows by `length(text) * (level + 1)`,
wordsTyped grows by 1, exactly that one word is removed (the word set
shrinks by exactly one), an explosion effect is emitted and the buffer
is cleared.  (A later word whose text equals the buffer is shadowed by
an earlier proper-prefix match and yields no HIT — see the
counterexample.) -/
theorem C1_hit (rng : EffRng) (m : Model) (i : ℕ) (w : Word)
    (hne : ¬m.input = [])
    (hscan : scanMatch m.input m.words = some (i, w))
    (heq : m.input = w.text) :
    matchWord rng m =
      { m with
        score := m.score + (w.text.length : Int) * (m.level + 1)
        wordsTyped := m.wordsTyped + 1
        effects := m.effects ++ [createExplosion w.x w.y w.text.length rng]
        words := m.words.eraseIdx i
        input := []
        current := none
        level := if (m.wordsTyped + 1) % 15 = 0 then m.level + 1
          else m.level } ∧
    (matchWord rng m).words.length + 1 = m.words.length := by
  have hi : i < m.words.length := by
    have hg := (scanMatch_some hscan).1
    by_contra hlt
    rw [List.getElem?_eq_none (Nat.le_of_not_lt hlt)] at hg
    exact Option.noConfusion hg
  have hrec : matchWord rng m =
      { m with
        score := m.score + (w.text.length : Int) * (m.level + 1)
        wordsTyped := m.wordsTyped + 1
        effects := m.effects ++ [createExplosion w.x w.y w.text.length rng]
        words := m.words.eraseIdx i
        input := []
        current := none
        level := if (m.wordsTyped + 1) % 15 = 0 then m.level + 1
          else m.level } := by
    unfold matchWord
    rw [if_neg (by simp [hne]), hscan]
    dsimp only
    rw [if_pos heq]
  refine ⟨hrec, ?_⟩
  rw [hrec]
  dsimp only
  rw [List.length_eraseIdx_of_lt hi]
  omega

/-- C1 witness: completing the single word `ab` scores
`2 * (level + 1) = 4` and removes it. -/
theorem C1_hit_witness :
    (matchWord rngZero mHit).words.length + 1 = mHit.words.length ∧
    (matchWord rngZero mHit).score = 4 :=
  ⟨(C1_hit rngZero mHit 0 wHit (by decide) (by decide) (by decide)).2,
   by
    rw [(C1_hit rngZero mHit 0 wHit (by decide) (by decide) (by decide)).1]
    decide⟩

/-- C1 counterexample.  In the reachable state holding `cats` (spawned
first) and `cat` with buffer `ca`, the keystroke `t` extends the buffer
to `cat`, which exactly equals the text of the word `cat` in the word
set — yet the claimed HIT does not happen: the earlier word `cats`
wins the prefix scan, so the score stays 0, wordsTyped stays 0, no word
is removed and the buffer is NOT cleared. -/
theorem C1_counterexample :
    ((runEvents q0 q0 dictC1 evC1).input ++ ['t']) ∈
      (runEvents q0 q0 dictC1 evC1).words.map (fun w => w.text) ∧
    runEvents q0 q0 dictC1 evC1t =
      applyEvent q0 q0 (runEvents q0 q0 dictC1 evC1)
        (Event.key rngZero (Key.letter 't')) ∧
    (runEvents q0 q0 dictC1 evC1t).score = 0 ∧
    (runEvents q0 q0 dictC1 evC1t).wordsTyped = 0 ∧
    (runEvents q0 q0 dictC1 evC1t).words.length =
      (runEvents q0 q0 dictC1 evC1).words.length ∧
    ¬((runEvents q0 q0 dictC1 evC1t).input = []) ∧
    Reachable q0 q0 dictC1 (runEvents q0 q0 dictC1 evC1) := by
  refine ⟨?_, ?_, ?_, ?_, ?_, ?_, reachable_runEvents q0 q0 dictC1 evC1⟩ <;>
    with_unfolding_all decide

end LetterInvaders

namespace LetterInvaders

theorem landedCount_le_one (ws : List Word)
    (hb : ∀ w ∈ ws, 0 ≤ w.y ∧ w.y < gameHeight)
    (hn : (ws.map (fun w => w.y)).Nodup) :
    landedCount ws ≤ 1 := by
  have h1 : landedCount ws = ws.countP (fun w => landed (bump w)) := by
    unfold landedCount
    rw [List.countP_map]
    rfl
  have h2 : ws.countP (fun w => landed (bump w)) =
      ws.countP (fun w => w.y == gameHeight - 1) := by
    refine List.countP_congr ?_
    intro w hw
    have hbw := hb w hw
    simp only [landed, bump, decide_eq_true_eq, beq_iff_eq]
    omega
  have h3 : ws.countP (fun w => w.y == gameHeight - 1) =
      (ws.map (fun w => w.y)).countP (fun y => y == gameHeight - 1) := by
    rw [List.countP_map]
    rfl
  have h4 := List.nodup_iff_count_le_one.1 hn (gameHeight - 1)
  rw [List.count_eq_countP] at h4
  omega

theorem inv_matchWord (rng : EffRng) (m : Model) (h : Inv m) :
    Inv (matchWord rng m) := by
  obtain ⟨hb, hn, hl, hg⟩ := h
  have hfr := matchWord_frame rng m
  refine ⟨?_, ?_, ?_, ?_⟩
  · intro w' hw'
    obtain ⟨w0, hw0, _, _, hy⟩ := matchWord_words_preserved rng m w' hw'
    rw [hy]
    exact hb w0 hw0
  · rcases matchWord_words_cases rng m with hw | ⟨i, w, hs, heq, hw⟩ | ⟨i, w, hs, hw⟩
    · rw [hw]
      exact hn
    · rw [hw]
      exact List.Nodup.sublist
        ((List.eraseIdx_sublist m.words i).map (fun w => w.y)) hn
    · rw [hw, List.map_set]
      have hget : (m.words.map (fun w => w.y))[i]? = some w.y := by
        rw [List.getElem?_map, (scanMatch_some hs).1]
        rfl
      rw [set_self_of_getElem? _ _ _ hget]
      exact hn
  · rw [hfr.1]
    exact hl
  · rw [hfr.2.2.1, hfr.1]
    exact hg

theorem inv_applyKey (rng : EffRng) (k : Key) (m : Model) (h : Inv m) :
    Inv (applyKey rng k m) := by
  unfold applyKey
  by_cases hgo : m.gameOver
  · rw [if_pos hgo]
    exact h
  · rw [if_neg hgo]
    cases k with
    | pauseToggle => exact h
    | backspace => exact h
    | redraw => exact h
    | letter c =>
      dsimp only
      by_cases hc : 'a' ≤ c ∧ c ≤ 'z'
      · rw [if_pos hc]
        exact inv_matchWord rng { m with input := m.input ++ [c] } h
      · rw [if_neg hc]
        exact h

theorem maybeAddWordB_frame (rng : TickRng) (m : Model) :
    (maybeAddWordB rng m).lives = m.lives ∧
    (maybeAddWordB rng m).gameOver = m.gameOver := by
  unfold maybeAddWordB spawnWord
  by_cases h8 : 8 ≤ m.words.length
  · rw [if_pos h8]
    exact ⟨rfl, rfl⟩
  · rw [if_neg h8]
    by_cases hcnd : (m.words.length : Int) < minWordsOf m.level ∨
        rng.spawnRoll < thresholdB m.level
    · rw [if_pos hcnd]
      exact ⟨rfl, rfl⟩
    · rw [if_neg hcnd]
      exact ⟨rfl, rfl⟩

theorem inv_tickB (cosF sinF : ℚ → ℚ) (rng : TickRng) (m : Model)
    (h : Inv m) : Inv (tickB cosF sinF rng m) := by
  obtain ⟨hb, hn, hl, hg⟩ := h
  unfold tickB
  by_cases hp : (!m.paused && !m.gameOver) = true
  · rw [if_pos hp]
    have hgo : m.gameOver = false := by
      simp only [Bool.and_eq_true, Bool.not_eq_true'] at hp
      exact hp.2
    have hc1 : landedCount m.words ≤ 1 := landedCount_le_one m.words hb hn
    have hw1 : (moveWords m).words =
        (m.words.map bump).filter (fun w => !landed w) := by
      rw [moveWords_eq]
    have hl1 : (moveWords m).lives =
        m.lives - (landedCount m.words : Int) := by
      rw [moveWords_eq]
    have hgo1 : (moveWords m).gameOver = (m.gameOver ||
        (decide (0 < landedCount m.words) &&
         decide (m.lives - (landedCount m.words : Int) ≤ 0))) := by
      rw [moveWords_eq]
    have hb1 : ∀ w' ∈ (moveWords m).words, 1 ≤ w'.y ∧ w'.y < gameHeight := by
      intro w' hw'
      rw [hw1] at hw'
      simp only [List.mem_filter, List.mem_map] at hw'
      obtain ⟨⟨w0, hw0, rfl⟩, hkeep⟩ := hw'
      have hbw := hb w0 hw0
      constructor
      · show 1 ≤ w0.y + 1
        omega
      · simp only [landed, Bool.not_eq_true', decide_eq_false_iff_not,
          not_le] at hkeep
        exact hkeep
    have hn1 : ((moveWords m).words.map (fun w => w.y)).Nodup := by
      rw [hw1]
      refine List.Nodup.sublist
        (List.Sublist.map (fun w : Word => w.y)
          (List.filter_sublist (m.words.map bump))) ?_
      rw [List.map_map]
      have he : ((fun w => w.y) ∘ bump) =
          (fun z => z + 1) ∘ (fun (w : Word) => w.y) := rfl
      rw [he, ← List.map_map]
      exact hn.map (fun a b hab => by omega)
    have hlive1 : 0 ≤ (moveWords m).lives := by
      rw [hl1]
      have := hg hgo
      omega
    have hg1 : (moveWords m).gameOver = false → 1 ≤ (moveWords m).lives := by
      intro hf
      rw [hgo1, hgo, Bool.false_or] at hf
      rw [hl1]
      rcases Nat.eq_zero_or_pos (landedCount m.words) with hc0 | hcpos
      · have := hg hgo
        rw [hc0]
        simp only [Nat.cast_zero]
        omega
      · have hdt : decide (0 < landedCount m.words) = true := by
          simpa using hcpos
        rw [hdt, Bool.true_and] at hf
        have : ¬(m.lives - (landedCount m.words : Int) ≤ 0) := by
          simpa using hf
        omega
    have hfr3 := maybeAddWordB_frame rng (updateEffects cosF sinF (moveWords m))
    refine ⟨?_, ?_, ?_, ?_⟩
    · intro w' hw'
      rcases maybeAddWordB_words_cases rng
          (updateEffects cosF sinF (moveWords m)) with hw3 | hw3
      · rw [hw3] at hw'
        have hb' := hb1 w' hw'
        exact ⟨by omega, hb'.2⟩
      · rw [hw3] at hw'
        rcases List.mem_append.1 hw' with hmem | hnew
        · have hb' := hb1 w' hmem
          exact ⟨by omega, hb'.2⟩
        · rcases List.mem_singleton.1 hnew with rfl
          constructor
          · show (0 : Int) ≤ (0 : Int)
            exact le_refl 0
          · show (0 : Int) < gameHeight
            decide
    · rcases maybeAddWordB_words_cases rng
          (updateEffects cosF sinF (moveWords m)) with hw3 | hw3
      · rw [hw3]
        exact hn1
      · rw [hw3, List.map_append]
        refine List.Nodup.append hn1 (List.nodup_singleton _) ?_
        intro a ha hain
        simp only [List.map_cons, List.map_nil, List.mem_singleton] at hain
        simp only [List.mem_map] at ha
        obtain ⟨w0, hw0, rfl⟩ := ha
        have := (hb1 w0 hw0).1
        have hy0 : (newWordOf rng
            (updateEffects cosF sinF (moveWords m)).dict).y = 0 := rfl
        rw [hy0] at hain
        omega
    · rw [hfr3.1]
      exact hlive1
    · intro hf
      rw [hfr3.1]
      refine hg1 ?_
      have hue : (updateEffects cosF sinF (moveWords m)).gameOver =
          (moveWords m).gameOver := rfl
      rw [← hue, ← hfr3.2]
      exact hf
  · rw [if_neg hp]
    exact ⟨hb, hn, hl, hg⟩

theorem inv_applyEvent (cosF sinF : ℚ → ℚ) (m : Model) (e : Event)
    (h : Inv m) : Inv (applyEvent cosF sinF m e) := by
  cases e with
  | tick rng => exact inv_tickB cosF sinF rng m h
  | key rng k => exact inv_applyKey rng k m h
  | resize w hh => exact h

theorem reachable_inv {cosF sinF : ℚ → ℚ} {dict : List Str} {m : Model}
    (h : Reachable cosF sinF dict m) : Inv m := by
  induction h with
  | init =>
    refine ⟨?_, ?_, ?_, ?_⟩
    · intro w hw
      simp [initialModel] at hw
    · simp [initialModel]
    · norm_num [initialModel]
    · intro _
      norm_num [initialModel]
  | step e _ ih => exact inv_applyEvent _ _ _ e ih

end LetterInvaders

namespace LetterInvaders

/-- C2 (amended).  In every reachable state lives is never negative
(and a live game keeps at least one life); the descent phase raises the
game-over flag on the very tick in which a word lands with
`lives - removed ≤ 0`; and once game over is set, every subsequent tick
is a complete no-op.  However the REMAINDER of the tick that sets
game over (the effect update and the spawn decision, which follow the
descent inside the same tick) still executes — same-tick suppression,
as claimed, does not hold (see the counterexample). -/
theorem C2_lives_safety (cosF sinF : ℚ → ℚ) (dict : List Str) (m : Model)
    (hr : Reachable cosF sinF dict m) :
    (0 ≤ m.lives ∧ (m.gameOver = false → 1 ≤ m.lives)) ∧
    (∀ m' : Model, (moveWords m').gameOver =
      (m'.gameOver || (decide (0 < landedCount m'.words) &&
        decide (m'.lives - (landedCount m'.words : Int) ≤ 0)))) ∧
    (∀ (rng : TickRng) (m' : Model), m'.gameOver = true →
      tickB cosF sinF rng m' = m') := by
  refine ⟨⟨(reachable_inv hr).2.2.1, (reachable_inv hr).2.2.2⟩, ?_, ?_⟩
  · intro m'
    rw [moveWords_eq]
  · intro rng m' hgo
    unfold tickB
    rw [hgo]
    simp

/-- C2 witness at the initial state. -/
theorem C2_lives_safety_witness :
    0 ≤ (initialModel dictC2).lives ∧
    ((initialModel dictC2).gameOver = false → 1 ≤ (initialModel dictC2).lives) :=
  (C2_lives_safety q0 q0 dictC2 (initialModel dictC2) Reachable.init).1

set_option maxRecDepth 100000 in
/-- C2 counterexample.  Running 64 unassisted ticks from the initial
state: at tick 63 one life remains; tick 64 lands the third word,
drops lives to 0 and sets game over — and on that SAME tick the spawn
decision still runs and adds a fresh word at row 0, refuting the
claimed suppression of spawn processing on the tick in which lives
reaches 0. -/
theorem C2_counterexample :
    (runEvents q0 q0 dictC2 evC2pre).gameOver = false ∧
    (runEvents q0 q0 dictC2 evC2pre).lives = 1 ∧
    (runEvents q0 q0 dictC2 evC2post).gameOver = true ∧
    (runEvents q0 q0 dictC2 evC2post).lives = 0 ∧
    (runEvents q0 q0 dictC2 evC2post).words.map (fun w => w.y) = [0] ∧
    Reachable q0 q0 dictC2 (runEvents q0 q0 dictC2 evC2post) := by
  refine ⟨?_, ?_, ?_, ?_, ?_, reachable_runEvents q0 q0 dictC2 evC2post⟩ <;>
    with_unfolding_all decide

end LetterInvaders
